import Mathlib

/-! # Traffic data processing pipeline (`Codefile.cpp`)

A shallow embedding of the producer/consumer pipeline of `Codefile.cpp`:

* the record parser used by `consumer` (three `std::getline` calls on a
  `std::istringstream`, then `std::stoi`),
* the aggregation table `congestionData` (a `std::map<std::string, int>`),
* the chunking performed by `main`,
* the ranking step `getTopN`,
* the interleaving semantics of the `producer` and `consumer` threads, whose
  critical sections (guarded by `queueMutex` and `dataMutex`) are the atomic
  steps of a labelled transition system.

A `std::string` is modelled as the list of its characters.  The lexicographic
order on `List Char` is the order `std::less<std::string>` uses for the keys of
the map.
-/

namespace Traffic

/-! ## Strings, configuration and sample data -/

/-- A `std::string`, as the sequence of its characters. -/
abbrev Str := List Char

/-- Configuration constant `NUM_PRODUCERS`. -/
def NUM_PRODUCERS : Nat := 2

/-- Configuration constant `NUM_CONSUMERS`. -/
def NUM_CONSUMERS : Nat := 2

/-- Configuration constant `TOP_N` (a C++ `int`). -/
def TOP_N : Int := 3

/-- Configuration constant `QUEUE_SIZE`. -/
def QUEUE_SIZE : Nat := 10

/-- The global `trafficData` vector of the program. -/
def trafficData : List Str :=
  [ "2025-03-28 08:00:00,TL1,5".toList,
    "2025-03-28 08:01:00,TL2,3".toList,
    "2025-03-28 08:02:00,TL1,7".toList,
    "2025-03-28 08:03:00,TL3,4".toList,
    "2025-03-28 08:04:00,TL2,6".toList,
    "2025-03-28 08:05:00,TL1,2".toList,
    "2025-03-28 08:06:00,TL3,8".toList,
    "2025-03-28 08:07:00,TL2,5".toList ]

/-- Eleven records: the sample data followed by three more lines of the same
form, one record more than `QUEUE_SIZE`. -/
def elevenRecords : List Str :=
  trafficData ++
  [ "2025-03-28 08:08:00,TL1,1".toList,
    "2025-03-28 08:09:00,TL2,1".toList,
    "2025-03-28 08:10:00,TL3,1".toList ]

/-- Two records, the first with a count field that is not a number. -/
def badCountData : List Str :=
  [ "2025-03-28 08:00:00,TL1,abc".toList,
    "2025-03-28 08:01:00,TL2,3".toList ]

/-- A line with four fields. -/
def fourFieldLine : Str := "2025-03-28 08:00:00,TL1,5,9".toList

/-- A line with a negative count. -/
def negativeCountLine : Str := "2025-03-28 08:00:00,TL1,-5".toList

/-- A line whose count is followed by a letter. -/
def trailingLetterLine : Str := "2025-03-28 08:00:00,TL1,5x".toList

/-! ## Record parsing (`consumer`, the `istringstream` block) -/

/-- One call `std::getline(ss, field, ',')`: the characters up to the next comma
(or up to the end of the stream) are stored in `field`, the comma is consumed.
The result is the field and what is left in the stream.  On an exhausted stream
nothing is extracted and the (freshly constructed, empty) string stays empty. -/
def getline : Str → Str × Str
  | [] => ([], [])
  | c :: rest =>
    if c = ',' then ([], rest)
    else (c :: (getline rest).1, (getline rest).2)

/-- Whitespace as `std::isspace` sees it in the C locale:
space, `\t`, `\n`, `\v`, `\f`, `\r`. -/
def isSpace (c : Char) : Bool :=
  c.toNat = 32 || (9 ≤ c.toNat && c.toNat ≤ 13)

/-- Decimal digit test, `'0' ≤ c ≤ '9'`. -/
def isDigit (c : Char) : Bool :=
  48 ≤ c.toNat && c.toNat ≤ 57

/-- Value of a string of decimal digits, most significant digit first. -/
def decimalValue (ds : Str) : Nat :=
  ds.foldl (fun acc c => 10 * acc + (c.toNat - 48)) 0

/-- Largest value of a C++ `int`. -/
def INT_MAX : Int := 2147483647

/-- Smallest value of a C++ `int`. -/
def INT_MIN : Int := -2147483648

/-- The two exceptions `std::stoi` throws. -/
inductive StoiError where
  | invalid_argument
  | out_of_range
  deriving DecidableEq, Repr

deriving instance DecidableEq for Except

/-- Optional sign accepted by `strtol`: the flag tells whether the number is
negated, the string is what follows the sign. -/
def readSign : Str → Bool × Str
  | '-' :: r => (true, r)
  | '+' :: r => (false, r)
  | r => (false, r)

/-- The number a sign flag and a run of digits stand for. -/
def signedValue (negative : Bool) (ds : Str) : Int :=
  if negative then -(decimalValue ds : Int) else (decimalValue ds : Int)

/-- The call `std::stoi(cars)` (base 10, no position output): leading
whitespace is skipped, an optional sign is read, then the longest run of
decimal digits is converted.  No digit at all throws `invalid_argument`; a
value that does not fit an `int` throws `out_of_range`.  Whatever follows the
digits is ignored. -/
def stoi (s : Str) : Except StoiError Int :=
  let signed := readSign (s.dropWhile isSpace)
  let ds := signed.2.takeWhile isDigit
  if ds = [] then .error .invalid_argument
  else if INT_MIN ≤ signedValue signed.1 ds ∧ signedValue signed.1 ds ≤ INT_MAX then
    .ok (signedValue signed.1 ds)
  else .error .out_of_range

/-- The parsing block of `consumer`: three `std::getline` calls
(`timestamp`, `lightID`, `cars`) followed by `std::stoi(cars)`.  The result is
the pair `(lightID, numCars)`, or the exception thrown by `std::stoi`. -/
def parseRecord (data : Str) : Except StoiError (Str × Int) :=
  let afterTimestamp := (getline data).2
  let lightID := (getline afterTimestamp).1
  let cars := (getline (getline afterTimestamp).2).1
  match stoi cars with
  | .ok numCars => .ok (lightID, numCars)
  | .error e => .error e

/-- The comma-separated fields of a line, as the specification counts them:
a line with `k` commas has `k + 1` fields. -/
def fields : Str → List Str
  | [] => [[]]
  | c :: rest =>
    if c = ',' then [] :: fields rest
    else
      match fields rest with
      | [] => [[c]]
      | f :: fs => (c :: f) :: fs

/-- The field with the given index (counted from `0`), empty when the line has
too few fields. -/
def field (data : Str) (i : Nat) : Str :=
  (fields data).getD i []

/-- The string `s` starts with an integer of value `v` in the sense of
`strtol`: optional white space, an optional sign, a non-empty run of decimal
digits that is not continued by a further digit, and the signed value of that
run is `v` and fits an `int`.  What follows the digits is arbitrary. -/
def LeadingInt (s : Str) (v : Int) : Prop :=
  ∃ ws sign ds rest : Str,
    s = ws ++ sign ++ ds ++ rest ∧
    (∀ c ∈ ws, isSpace c = true) ∧
    (sign = [] ∨ sign = ['-'] ∨ sign = ['+']) ∧
    ds ≠ [] ∧ (∀ c ∈ ds, isDigit c = true) ∧
    (∀ c, rest.head? = some c → isDigit c = false) ∧
    v = signedValue (decide (sign = ['-'])) ds ∧
    INT_MIN ≤ v ∧ v ≤ INT_MAX

/-! ## The aggregation table `congestionData` -/

/-- A `std::map<std::string, int>`: its entries in iteration order, that is in
strictly ascending key order. -/
abbrev Table := List (Str × Int)

/-- Invariant of a `std::map`: keys strictly ascending (hence unique). -/
def Table.WF (t : Table) : Prop :=
  t.Pairwise (fun a b => a.1 < b.1)

instance (t : Table) : Decidable t.WF := by
  unfold Table.WF; infer_instance

/-- Addition on `int` as the machine performs it (two's complement, 32 bits). -/
def addInt32 (a b : Int) : Int :=
  (a + b + 2147483648) % 4294967296 - 2147483648

/-- The statement `congestionData[lightID] += numCars`: `operator[]` inserts the
key with value `0` when it is absent, then the value is incremented. -/
def Table.add (lightID : Str) (numCars : Int) : Table → Table
  | [] => [(lightID, addInt32 0 numCars)]
  | (k, v) :: t =>
    if lightID < k then (lightID, addInt32 0 numCars) :: (k, v) :: t
    else if lightID = k then (k, addInt32 v numCars) :: t
    else (k, v) :: Table.add lightID numCars t

/-- Value stored under a key, if any (`congestionData.find`). -/
def Table.lookup (lightID : Str) : Table → Option Int
  | [] => none
  | (k, v) :: t => if lightID = k then some v else Table.lookup lightID t

/-- The body of the `consumer` loop after a record was popped (source lines
65 to 75): parse the record and merge it under `dataMutex`.  An exception of
`std::stoi` is not caught in `consumer`; it leaves the table as it is. -/
def processRecord (data : Str) (table : Table) : Except StoiError Table :=
  match parseRecord data with
  | .ok (lightID, numCars) => .ok (table.add lightID numCars)
  | .error e => .error e

/-- A single consumer working through a list of popped records, one after the
other: the first exception ends the loop (the thread function is left by the
exception), the records after it are never looked at. -/
def consumeAll : List Str → Table → Except StoiError Table
  | [], table => .ok table
  | data :: rest, table =>
    match processRecord data table with
    | .ok table' => consumeAll rest table'
    | .error e => .error e

/-! ## Well-formed input records -/

/-- The three fields of an input line `<timestamp>,<lightID>,<count>`; `count`
is the numeral as written. -/
structure Record where
  timestamp : Str
  lightID : Str
  count : Str
  deriving DecidableEq, Repr

/-- The line of text of a record. -/
def Record.line (r : Record) : Str :=
  r.timestamp ++ ',' :: (r.lightID ++ ',' :: r.count)

/-- A record is well formed when its timestamp and its light identifier contain
no comma and its count is a non-empty string of decimal digits. -/
def Record.WF (r : Record) : Prop :=
  ',' ∉ r.timestamp ∧ ',' ∉ r.lightID ∧ r.count ≠ [] ∧ ∀ c ∈ r.count, isDigit c = true

instance (r : Record) : Decidable r.WF := by
  unfold Record.WF; infer_instance

/-- The `vehicleCount` of a well-formed record. -/
def Record.vehicleCount (r : Record) : Nat :=
  decimalValue r.count

/-- The sum of `vehicleCount` over the records with the given `lightID`. -/
def sumFor (lightID : Str) (recs : List Record) : Nat :=
  ((recs.filter (fun r => decide (r.lightID = lightID))).map Record.vehicleCount).sum

/-- The eight records of the end-to-end example of the specification. -/
def exampleRecords : List Record :=
  [ ⟨"t".toList, "TL1".toList, "5".toList⟩, ⟨"t".toList, "TL2".toList, "3".toList⟩,
    ⟨"t".toList, "TL1".toList, "7".toList⟩, ⟨"t".toList, "TL3".toList, "4".toList⟩,
    ⟨"t".toList, "TL2".toList, "6".toList⟩, ⟨"t".toList, "TL1".toList, "2".toList⟩,
    ⟨"t".toList, "TL3".toList, "8".toList⟩, ⟨"t".toList, "TL2".toList, "5".toList⟩ ]

/-- The eight lines of the end-to-end example of the specification. -/
def exampleLines : List Str :=
  [ "t,TL1,5".toList, "t,TL2,3".toList, "t,TL1,7".toList, "t,TL3,4".toList,
    "t,TL2,6".toList, "t,TL1,2".toList, "t,TL3,8".toList, "t,TL2,5".toList ]

/-- The table of the end-to-end example: `TL1: 14, TL2: 14, TL3: 12`. -/
def exampleTable : Table :=
  [("TL1".toList, 14), ("TL2".toList, 14), ("TL3".toList, 12)]

/-- Two well-formed records for the same light whose counts, `2147483647` and
`1`, add up to one more than the largest `int`. -/
def overflowRecords : List Record :=
  [ ⟨"t".toList, "A".toList, "2147483647".toList⟩,
    ⟨"t".toList, "A".toList, "1".toList⟩ ]

/-- A well-formed record whose count, `2147483648`, is itself one more than the
largest `int`. -/
def tooLargeRecord : Record :=
  ⟨"t".toList, "A".toList, "2147483648".toList⟩

/-- The records of the program's `trafficData`, field by field. -/
def trafficRecords : List Record :=
  [ ⟨"2025-03-28 08:00:00".toList, "TL1".toList, "5".toList⟩,
    ⟨"2025-03-28 08:01:00".toList, "TL2".toList, "3".toList⟩,
    ⟨"2025-03-28 08:02:00".toList, "TL1".toList, "7".toList⟩,
    ⟨"2025-03-28 08:03:00".toList, "TL3".toList, "4".toList⟩,
    ⟨"2025-03-28 08:04:00".toList, "TL2".toList, "6".toList⟩,
    ⟨"2025-03-28 08:05:00".toList, "TL1".toList, "2".toList⟩,
    ⟨"2025-03-28 08:06:00".toList, "TL3".toList, "8".toList⟩,
    ⟨"2025-03-28 08:07:00".toList, "TL2".toList, "5".toList⟩ ]

/-- The table holds exactly the sums of the records merged so far. -/
def Merged (t : Table) (merged : List Record) : Prop :=
  t.WF ∧ ∀ k, Table.lookup k t =
    if k ∈ merged.map Record.lightID then some (sumFor k merged : Int) else none

/-! ## Chunking (`main`, source lines 97 to 106) -/

/-- The range constructor
`std::vector<std::string>(v.begin() + a, v.begin() + b)`. -/
def slice (v : List Str) (a b : Nat) : List Str :=
  (v.drop a).take (b - a)

/-- The call `dataChunks.back().insert(dataChunks.back().end(), first, last)`:
the given records are appended to the last chunk. -/
def appendToBack : List (List Str) → List Str → List (List Str)
  | [], _ => []
  | c :: cs, extra =>
    match cs with
    | [] => [c ++ extra]
    | _ :: _ => c :: appendToBack cs extra

/-- The chunking of `main`: `chunkSize = size / NUM_PRODUCERS`, chunk `i` is the
range `[i * chunkSize, (i + 1) * chunkSize)`, and when the size is not a
multiple of the producer count the range `[NUM_PRODUCERS * chunkSize, size)` is
appended to the last chunk.  Every index computed here is at most the size of
the vector. -/
def dataChunks (data : List Str) (numProducers : Nat) : List (List Str) :=
  let chunkSize := data.length / numProducers
  let chunks := (List.range numProducers).map
    (fun i => slice data (i * chunkSize) ((i + 1) * chunkSize))
  if data.length % numProducers ≠ 0 then
    appendToBack chunks (slice data (numProducers * chunkSize) data.length)
  else chunks

/-! ## The ranking step `getTopN` -/

/-- The comparison lambda handed to `std::sort` in `getTopN`:
`a.second > b.second`. -/
def byTotalDesc (a b : Str × Int) : Bool :=
  decide (a.2 > b.2)

/-- What the C++ standard promises about `std::sort(first, last, comp)`: the
range is rearranged (a permutation of the elements) so that `comp(later,
earlier)` is false for every two positions.  Nothing is promised about the
relative order of elements neither of which is `comp` the other:
`std::sort` is not `std::stable_sort`. -/
structure StdSortContract (sort : List (Str × Int) → List (Str × Int)) : Prop where
  perm : ∀ l, (sort l).Perm l
  sorted : ∀ l, (sort l).Pairwise (fun a b => byTotalDesc b a = false)

/-- The function `getTopN`, with the library routine `std::sort` as a
parameter: the entries of `congestionData` are copied in key order into
`sortedData`, sorted with the comparison `byTotalDesc`, and the entries at the
indices `0 ≤ i < std::min(TOP_N, (int)sortedData.size())` are printed.  The
result is the list of printed `(lightID, total)` pairs. -/
def getTopN (sort : List (Str × Int) → List (Str × Int)) (congestionData : Table)
    (topN : Int) : List (Str × Int) :=
  let sortedData := sort congestionData
  sortedData.take (min topN (sortedData.length : Int)).toNat

/-! ## GNU libstdc++ `std::sort` (`bits/stl_algo.h`, `bits/stl_heap.h`)

The routine `getTopN` calls is library code.  This section transcribes the
implementation that GCC ships, specialised to the comparison `byTotalDesc`, so
that the ranking can be evaluated on concrete tables.  A range `[first, last)`
is given by its two offsets into the vector. -/

/-- Element `v[i]` of the vector being sorted. -/
def elemAt (v : List (Str × Int)) (i : Nat) : Str × Int :=
  v.getD i ([], 0)

/-- `std::iter_swap(first + i, first + j)`. -/
def iterSwap (v : List (Str × Int)) (i j : Nat) : List (Str × Int) :=
  (v.set i (elemAt v j)).set j (elemAt v i)

/-- `__move_median_to_first(result, a, b, c, comp)`. -/
def moveMedianToFirst (v : List (Str × Int)) (result a b c : Nat) : List (Str × Int) :=
  if byTotalDesc (elemAt v a) (elemAt v b) then
    if byTotalDesc (elemAt v b) (elemAt v c) then iterSwap v result b
    else if byTotalDesc (elemAt v a) (elemAt v c) then iterSwap v result c
    else iterSwap v result a
  else if byTotalDesc (elemAt v a) (elemAt v c) then iterSwap v result a
  else if byTotalDesc (elemAt v b) (elemAt v c) then iterSwap v result c
  else iterSwap v result b

/-- The loop `while (comp(first, pivot)) ++first;` of `__unguarded_partition`
(at most `fuel` iterations). -/
def advanceFirst (v : List (Str × Int)) (pivot : Nat) : Nat → Nat → Nat
  | 0, first => first
  | fuel + 1, first =>
    if byTotalDesc (elemAt v first) (elemAt v pivot) then advanceFirst v pivot fuel (first + 1)
    else first

/-- The loop `while (comp(pivot, last)) --last;` of `__unguarded_partition`
(at most `fuel` iterations). -/
def retreatLast (v : List (Str × Int)) (pivot : Nat) : Nat → Nat → Nat
  | 0, last => last
  | fuel + 1, last =>
    if byTotalDesc (elemAt v pivot) (elemAt v last) then retreatLast v pivot fuel (last - 1)
    else last

/-- `__unguarded_partition(first, last, pivot, comp)`: the rearranged vector and
the returned cut position (at most `fuel` rounds of the outer loop). -/
def unguardedPartition (pivot : Nat) :
    Nat → List (Str × Int) → Nat → Nat → List (Str × Int) × Nat
  | 0, v, first, _ => (v, first)
  | fuel + 1, v, first, last =>
    if advanceFirst v pivot v.length first
        < retreatLast v pivot v.length (last - 1) then
      unguardedPartition pivot fuel
        (iterSwap v (advanceFirst v pivot v.length first)
          (retreatLast v pivot v.length (last - 1)))
        (advanceFirst v pivot v.length first + 1)
        (retreatLast v pivot v.length (last - 1))
    else (v, advanceFirst v pivot v.length first)

/-- `__unguarded_partition_pivot(first, last, comp)`. -/
def unguardedPartitionPivot (v : List (Str × Int)) (first last : Nat) :
    List (Str × Int) × Nat :=
  unguardedPartition first (v.length + 1)
    (moveMedianToFirst v first (first + 1) (first + (last - first) / 2) (last - 1))
    (first + 1) last

/-- `__push_heap(first, holeIndex, topIndex, value, comp)` on the range `h`
(at most `fuel` iterations of the loop). -/
def pushHeap (topIndex : Nat) (value : Str × Int) :
    Nat → List (Str × Int) → Nat → List (Str × Int)
  | 0, h, holeIndex => h.set holeIndex value
  | fuel + 1, h, holeIndex =>
    if holeIndex > topIndex ∧ byTotalDesc (elemAt h ((holeIndex - 1) / 2)) value = true then
      pushHeap topIndex value fuel (h.set holeIndex (elemAt h ((holeIndex - 1) / 2)))
        ((holeIndex - 1) / 2)
    else h.set holeIndex value

/-- The child that moves up in one round of the `while` loop of
`__adjust_heap`. -/
def liftedChild (h : List (Str × Int)) (secondChild : Nat) : Nat :=
  if byTotalDesc (elemAt h (2 * (secondChild + 1))) (elemAt h (2 * (secondChild + 1) - 1)) then
    2 * (secondChild + 1) - 1
  else 2 * (secondChild + 1)

/-- The `while` loop of `__adjust_heap` (at most `fuel` iterations): the range
and the final value of `holeIndex`, which is also that of `secondChild`. -/
def siftDown (len : Nat) : Nat → List (Str × Int) → Nat → List (Str × Int) × Nat
  | 0, h, holeIndex => (h, holeIndex)
  | fuel + 1, h, holeIndex =>
    if holeIndex < (len - 1) / 2 then
      siftDown len fuel (h.set holeIndex (elemAt h (liftedChild h holeIndex)))
        (liftedChild h holeIndex)
    else (h, holeIndex)

/-- `__adjust_heap(first, holeIndex, len, value, comp)` on the range `h`. -/
def adjustHeap (h : List (Str × Int)) (holeIndex len : Nat) (value : Str × Int) :
    List (Str × Int) :=
  if len % 2 = 0 ∧ (siftDown len h.length h holeIndex).2 = (len - 2) / 2 then
    pushHeap holeIndex value h.length
      ((siftDown len h.length h holeIndex).1.set (siftDown len h.length h holeIndex).2
        (elemAt (siftDown len h.length h holeIndex).1
          (2 * ((siftDown len h.length h holeIndex).2 + 1) - 1)))
      (2 * ((siftDown len h.length h holeIndex).2 + 1) - 1)
  else
    pushHeap holeIndex value h.length (siftDown len h.length h holeIndex).1
      (siftDown len h.length h holeIndex).2

/-- The loop of `__make_heap`, for `parent` from the given index down to `0`. -/
def makeHeapFrom : Nat → List (Str × Int) → List (Str × Int)
  | 0, h => adjustHeap h 0 h.length (elemAt h 0)
  | parent + 1, h =>
    makeHeapFrom parent (adjustHeap h (parent + 1) h.length (elemAt h (parent + 1)))

/-- `__make_heap(first, last, comp)` on the range `h`. -/
def makeHeap (h : List (Str × Int)) : List (Str × Int) :=
  if h.length < 2 then h else makeHeapFrom ((h.length - 2) / 2) h

/-- `__pop_heap(first, last, last, comp)` where `last - first` is the given
number: the top moves behind the heap, the displaced element is sifted in. -/
def popHeap (h : List (Str × Int)) (last : Nat) : List (Str × Int) :=
  adjustHeap (h.set last (elemAt h 0)) 0 last (elemAt h last)

/-- The loop of `__sort_heap`: `while (last - first > 1) { --last; pop }`, with
`last - first` equal to the given number plus one at the start. -/
def sortHeapFrom : Nat → List (Str × Int) → List (Str × Int)
  | 0, h => h
  | last + 1, h => sortHeapFrom last (popHeap h (last + 1))

/-- `__partial_sort(first, last, last, comp)`, a heap sort of the range `h`:
`__heap_select` with `middle == last` is `__make_heap`, then `__sort_heap`. -/
def heapSort (h : List (Str × Int)) : List (Str × Int) :=
  sortHeapFrom (h.length - 1) (makeHeap h)

/-- `__partial_sort(first, last, last, comp)` on the range `[first, last)` of
the vector. -/
def heapSortRange (v : List (Str × Int)) (first last : Nat) : List (Str × Int) :=
  v.take first ++ heapSort ((v.drop first).take (last - first)) ++ v.drop last

/-- `__introsort_loop(first, last, depth_limit, comp)`: while the range has
more than sixteen elements it is partitioned, the right part is sorted by a
recursive call and the loop goes on with the left part; when `depth_limit` is
used up the range is heap sorted instead. -/
def introsortLoop : Nat → List (Str × Int) → Nat → Nat → List (Str × Int)
  | 0, v, first, last =>
    if last - first > 16 then heapSortRange v first last else v
  | depthLimit + 1, v, first, last =>
    if last - first > 16 then
      introsortLoop depthLimit
        (introsortLoop depthLimit (unguardedPartitionPivot v first last).1
          (unguardedPartitionPivot v first last).2 last)
        first (unguardedPartitionPivot v first last).2
    else v

/-- `__unguarded_linear_insert`: the element moves to the left past every
element it has to precede.  The sorted range to its left is given nearest
element first, and so is the result. -/
def linearInsert (val : Str × Int) : List (Str × Int) → List (Str × Int)
  | [] => [val]
  | next :: more =>
    if byTotalDesc val next then next :: linearInsert val more
    else val :: next :: more

/-- `__insertion_sort`, continued on a range whose left part is sorted already:
an element that has to precede the first one is moved to the front, any other
is inserted by `__unguarded_linear_insert`. -/
def insertionSortFrom (sortedPart pendingPart : List (Str × Int)) : List (Str × Int) :=
  pendingPart.foldl
    (fun left val =>
      match left with
      | [] => [val]
      | front :: _ =>
        if byTotalDesc val front then val :: left
        else (linearInsert val left.reverse).reverse)
    sortedPart

/-- `__unguarded_insertion_sort`, continued on a range whose left part is sorted
already. -/
def unguardedInsertionSortFrom (sortedPart pendingPart : List (Str × Int)) :
    List (Str × Int) :=
  pendingPart.foldl (fun left val => (linearInsert val left.reverse).reverse) sortedPart

/-- `__final_insertion_sort(first, last, comp)`. -/
def finalInsertionSort (v : List (Str × Int)) : List (Str × Int) :=
  if v.length > 16 then
    unguardedInsertionSortFrom (insertionSortFrom [] (v.take 16)) (v.drop 16)
  else insertionSortFrom [] v

/-- `std::__lg(n)`: the position of the highest set bit (`fuel` bounds the
number of halvings). -/
def lg : Nat → Nat → Nat
  | 0, _ => 0
  | fuel + 1, n => if n ≤ 1 then 0 else lg fuel (n / 2) + 1

/-- `std::sort(v.begin(), v.end(), comp)` as GNU libstdc++ implements it
(`std::__sort`): introsort down to ranges of at most sixteen elements, then a
final insertion sort. -/
def libstdcxxSort (v : List (Str × Int)) : List (Str × Int) :=
  if v = [] then v
  else finalInsertionSort (introsortLoop (lg v.length v.length * 2) v 0 v.length)

/-- A sorting routine that meets the contract of `std::sort` and keeps elements
with equal totals in their original order. -/
def tieKeepingSort (v : List (Str × Int)) : List (Str × Int) :=
  v.insertionSort (fun a b => a.2 ≥ b.2)

/-- A sorting routine that meets the contract of `std::sort` and reverses the
original order of elements with equal totals. -/
def tieReversingSort (v : List (Str × Int)) : List (Str × Int) :=
  v.reverse.insertionSort (fun a b => a.2 ≥ b.2)

/-- A table of seventeen lights `L00` to `L16`, each with total `7`. -/
def seventeenLights : Table :=
  [ ("L00".toList, 7), ("L01".toList, 7), ("L02".toList, 7), ("L03".toList, 7),
    ("L04".toList, 7), ("L05".toList, 7), ("L06".toList, 7), ("L07".toList, 7),
    ("L08".toList, 7), ("L09".toList, 7), ("L10".toList, 7), ("L11".toList, 7),
    ("L12".toList, 7), ("L13".toList, 7), ("L14".toList, 7), ("L15".toList, 7),
    ("L16".toList, 7) ]

/-! ## The threads: `producer`, `consumer` and their interleavings

The queue is only touched while `queueMutex` is held and the table only while
`dataMutex` is held, so an execution of the program is an interleaving of the
critical sections of its threads.  A `wait(lock, pred)` on the condition
variable returns with the lock held in a state where `pred` is true, and each
thread calls `notify_all` after changing the queue: the critical section after
a `wait` is an atomic step that is enabled exactly when `pred` holds. -/

/-- Where a `consumer` thread stands: at the top of its `while (true)` loop,
past the `pop` with the record in its local variable `data`, or returned (the
`break` was taken). -/
inductive ConsumerPC where
  | loopTop
  | popped (data : Str)
  | finished
  deriving DecidableEq, Repr

/-- State of the running program.  `pending[i]` is the part of the `dataChunk`
of producer `i` that its `for` loop has not pushed yet: the thread function
returns once it is empty.  `aborted` records an exception that left a thread
function: `std::terminate` ends the process. -/
structure State where
  pending : List (List Str)
  consumers : List ConsumerPC
  trafficQueue : List Str
  congestionData : Table
  aborted : Option StoiError
  deriving DecidableEq, Repr

/-- The scheduler's choice: which thread performs its next atomic step. -/
inductive Label where
  | produce (producerID : Nat)
  | consume (consumerID : Nat)
  deriving DecidableEq, Repr

/-- One atomic step of the chosen thread with queue capacity `cap`
(`QUEUE_SIZE`), or `none` when the thread cannot move (it has returned, it is
blocked in `wait`, or the process was aborted).

* `produce i`: the body of the `for` loop of `producer`: wait until
  `trafficQueue.size() < QUEUE_SIZE`, then push the next line of the chunk.
* `consume j` at the top of the loop: `if (trafficQueue.empty()) break;`,
  otherwise (the predicate of the `wait` is already true) take the front
  record and pop it.
* `consume j` after the pop: parse the record and merge it; an exception of
  `std::stoi` is not caught anywhere and aborts the process. -/
def step (cap : Nat) (s : State) : Label → Option State
  | .produce i =>
    if s.aborted.isSome then none
    else
      match s.pending[i]? with
      | some (line :: rest) =>
        if s.trafficQueue.length < cap then
          some { s with pending := s.pending.set i rest,
                        trafficQueue := s.trafficQueue ++ [line] }
        else none
      | _ => none
  | .consume j =>
    if s.aborted.isSome then none
    else
      match s.consumers[j]? with
      | some .loopTop =>
        match s.trafficQueue with
        | [] => some { s with consumers := s.consumers.set j .finished }
        | data :: rest =>
          some { s with consumers := s.consumers.set j (.popped data),
                        trafficQueue := rest }
      | some (.popped data) =>
        match processRecord data s.congestionData with
        | .ok table => some { s with consumers := s.consumers.set j .loopTop,
                                     congestionData := table }
        | .error e => some { s with aborted := some e }
      | _ => none

/-- The state in which `main` has started all threads: every producer holds its
whole chunk, every consumer is at the top of its loop, the queue and the table
are empty. -/
def initial (data : List Str) (numProducers numConsumers : Nat) : State :=
  { pending := dataChunks data numProducers,
    consumers := List.replicate numConsumers .loopTop,
    trafficQueue := [],
    congestionData := [],
    aborted := none }

/-- Execution of a schedule: the listed threads move one after the other; `none`
when a listed thread cannot move at its turn. -/
def run (cap : Nat) (s : State) : List Label → Option State
  | [] => some s
  | l :: ls =>
    match step cap s l with
    | some s' => run cap s' ls
    | none => none

/-- The state a schedule leads to (the start state itself when the schedule
cannot be executed). -/
def runD (cap : Nat) (s : State) (ls : List Label) : State :=
  (run cap s ls).getD s

/-- The states the program can be in: those some schedule leads to. -/
inductive Reachable (cap : Nat) (s0 : State) : State → Prop where
  | start : Reachable cap s0 s0
  | next {s s' : State} (l : Label) :
      Reachable cap s0 s → step cap s l = some s' → Reachable cap s0 s'

/-- All producer thread functions have returned. -/
def State.producersDone (s : State) : Bool :=
  s.pending.all (fun chunk => chunk.isEmpty)

/-- All consumer thread functions have returned. -/
def State.consumersDone (s : State) : Bool :=
  s.consumers.all (fun pc => decide (pc = .finished))

/-- No thread can move. -/
def State.stuck (cap : Nat) (s : State) : Prop :=
  ∀ l, step cap s l = none

/-- Decision procedure for `State.stuck`: the process was aborted, or every
producer has returned or faces a full queue and every consumer has returned. -/
def State.stuckB (cap : Nat) (s : State) : Bool :=
  s.aborted.isSome ||
    (s.pending.all (fun chunk => chunk.isEmpty || decide (cap ≤ s.trafficQueue.length)) &&
      s.consumers.all (fun pc => decide (pc = .finished)))

/-- The total the table reports for a key (`0` for a key that is absent). -/
def Table.total (t : Table) (lightID : Str) : Int :=
  (Table.lookup lightID t).getD 0

/-! ## Chunking -/

theorem slice_append (v : List Str) {a b c : Nat} (hab : a ≤ b) (hbc : b ≤ c) :
    slice v a b ++ slice v b c = slice v a c := by
  unfold slice
  have h1 : c - a = (b - a) + (c - b) := by omega
  have h2 : List.drop b v = List.drop (b - a) (List.drop a v) := by
    rw [List.drop_drop]; congr 1; omega
  rw [h1, h2, List.take_add]

theorem appendToBack_length (cs : List (List Str)) (extra : List Str) :
    (appendToBack cs extra).length = cs.length := by
  induction cs with
  | nil => rfl
  | cons c t ih =>
    cases t with
    | nil => rfl
    | cons d t => simp only [appendToBack, List.length_cons] at ih ⊢; omega

theorem appendToBack_eq (cs : List (List Str)) (last extra : List Str) :
    appendToBack (cs ++ [last]) extra = cs ++ [last ++ extra] := by
  induction cs with
  | nil => rfl
  | cons c t ih =>
    cases t with
    | nil => rfl
    | cons d t =>
      simp only [List.cons_append] at ih ⊢
      simp only [appendToBack] at ih ⊢
      rw [ih]

theorem join_slices (data : List Str) (cs k : Nat) :
    ((List.range k).map (fun i => slice data (i * cs) ((i + 1) * cs))).flatten
      = slice data 0 (k * cs) := by
  induction k with
  | zero => simp [slice]
  | succ k ih =>
    rw [List.range_succ, List.map_append, List.flatten_append, ih]
    simp only [List.map_cons, List.map_nil, List.flatten_cons, List.flatten_nil, List.append_nil]
    exact slice_append data (Nat.zero_le _) (by nlinarith)


theorem dataChunks_split (data : List Str) (P : Nat) (hP : 1 ≤ P) :
    dataChunks data P =
      (List.range (P - 1)).map
          (fun i => slice data (i * (data.length / P)) ((i + 1) * (data.length / P)))
        ++ [slice data ((P - 1) * (data.length / P)) data.length] := by
  obtain ⟨k, rfl⟩ : ∃ k, P = k + 1 := ⟨P - 1, by omega⟩
  have hmul : (k + 1) * (data.length / (k + 1)) ≤ data.length :=
    Nat.mul_div_le data.length (k + 1)
  have hle : k * (data.length / (k + 1)) ≤ (k + 1) * (data.length / (k + 1)) :=
    Nat.mul_le_mul_right _ (Nat.le_succ k)
  unfold dataChunks
  simp only [Nat.add_sub_cancel]
  rw [List.range_succ, List.map_append]
  simp only [List.map_cons, List.map_nil]
  split
  · rw [appendToBack_eq, slice_append data hle hmul]
  · rename_i h
    have h0 : data.length % (k + 1) = 0 := by simpa using h
    have : (k + 1) * (data.length / (k + 1)) = data.length :=
      Nat.mul_div_cancel' (Nat.dvd_of_mod_eq_zero h0)
    rw [this]

theorem slice_length (v : List Str) {a b : Nat} (hab : a ≤ b) (hb : b ≤ v.length) :
    (slice v a b).length = b - a := by
  unfold slice
  rw [List.length_take, List.length_drop]
  omega

/-- C2. For every record list of length `n` and every producer count `P ≥ 1`,
the chunking of `main` yields exactly `P` chunks; chunk `i` for `i < P - 1` is
the range `[i * (n / P), (i + 1) * (n / P))` of the input, the last chunk is the
range `[(P - 1) * (n / P), n)`, which has `n / P + n % P` records, and the
chunks concatenated in index order are the input list: the chunks are
contiguous, do not overlap, and every record is in exactly one of them. -/
theorem dataChunks_contiguous (data : List Str) (P : Nat) (hP : 1 ≤ P) :
    (dataChunks data P).length = P ∧
    (∀ i, i < P - 1 → (dataChunks data P)[i]? =
      some (slice data (i * (data.length / P)) ((i + 1) * (data.length / P)))) ∧
    (dataChunks data P)[P - 1]? =
      some (slice data ((P - 1) * (data.length / P)) data.length) ∧
    (slice data ((P - 1) * (data.length / P)) data.length).length =
      data.length / P + data.length % P ∧
    (dataChunks data P).flatten = data := by
  have hle : (P - 1) * (data.length / P) ≤ data.length := by
    calc (P - 1) * (data.length / P) ≤ P * (data.length / P) :=
          Nat.mul_le_mul_right _ (Nat.sub_le P 1)
      _ ≤ data.length := Nat.mul_div_le data.length P
  rw [dataChunks_split data P hP]
  refine ⟨?_, ?_, ?_, ?_, ?_⟩
  · simp; omega
  · intro i hi
    rw [List.getElem?_append_left (by simpa using hi)]
    simp [List.getElem?_map, List.getElem?_range hi]
  · rw [List.getElem?_append_right (by simp)]
    simp
  · rw [slice_length data hle (le_refl _)]
    have h1 : P * (data.length / P) + data.length % P = data.length := Nat.div_add_mod _ _
    have h2 : (P - 1) * (data.length / P) + data.length / P = P * (data.length / P) := by
      obtain ⟨k, rfl⟩ : ∃ k, P = k + 1 := ⟨P - 1, by omega⟩
      rw [Nat.add_sub_cancel, Nat.succ_mul]
    omega
  · rw [List.flatten_append, join_slices]
    simp only [List.flatten_cons, List.flatten_nil, List.append_nil]
    rw [slice_append data (Nat.zero_le _) hle]
    simp [slice]

/-- C2 on the program's own data: two producers, eight records. -/
theorem dataChunks_contiguous_witness :
    1 ≤ NUM_PRODUCERS ∧
    (dataChunks trafficData NUM_PRODUCERS).length = NUM_PRODUCERS ∧
    (dataChunks trafficData NUM_PRODUCERS).flatten = trafficData :=
  ⟨by decide, (dataChunks_contiguous trafficData NUM_PRODUCERS (by decide)).1,
    (dataChunks_contiguous trafficData NUM_PRODUCERS (by decide)).2.2.2.2⟩

/-! ## The queue never exceeds its capacity -/

theorem step_produce_eq {cap : Nat} {s s' : State} {i : Nat}
    (h : step cap s (.produce i) = some s') :
    s.trafficQueue.length < cap ∧
      s'.trafficQueue.length = s.trafficQueue.length + 1 := by
  simp only [step] at h
  split at h
  · exact absurd h (by simp)
  · split at h
    · split at h
      · rename_i hlt
        cases h
        exact ⟨hlt, by simp⟩
      · exact absurd h (by simp)
    · exact absurd h (by simp)

theorem step_consume_le {cap : Nat} {s s' : State} {j : Nat}
    (h : step cap s (.consume j) = some s') :
    s'.trafficQueue.length ≤ s.trafficQueue.length := by
  simp only [step] at h
  split at h
  · exact absurd h (by simp)
  · split at h
    · split at h
      · cases h; simp
      · rename_i hq
        cases h
        simp [hq]
    · split at h
      · cases h; simp
      · cases h; simp
    · exact absurd h (by simp)

theorem step_queue_le {cap : Nat} {s s' : State} {l : Label}
    (hs : s.trafficQueue.length ≤ cap) (h : step cap s l = some s') :
    s'.trafficQueue.length ≤ cap := by
  cases l with
  | produce i =>
    have := step_produce_eq h
    omega
  | consume j =>
    have := step_consume_le h
    omega

/-- C8. Starting from an empty queue, in every reachable state the queue holds
at most `cap` (`QUEUE_SIZE`) records, and a step that makes the queue longer (a
push) is only taken in a state whose queue is strictly shorter than `cap`. -/
theorem queue_never_exceeds_capacity (cap : Nat) (s0 s : State)
    (h0 : s0.trafficQueue = []) (hr : Reachable cap s0 s) :
    s.trafficQueue.length ≤ cap ∧
      ∀ l s', step cap s l = some s' →
        s.trafficQueue.length < s'.trafficQueue.length →
        s.trafficQueue.length < cap := by
  constructor
  · induction hr with
    | start => simp [h0]
    | next l _ hstep ih => exact step_queue_le ih hstep
  · intro l s' hstep hgrow
    cases l with
    | produce i => exact (step_produce_eq hstep).1
    | consume j =>
      have := step_consume_le hstep
      omega

theorem reachable_run {cap : Nat} {s0 : State} (ls : List Label) :
    ∀ {s s' : State}, Reachable cap s0 s → run cap s ls = some s' → Reachable cap s0 s' := by
  induction ls with
  | nil =>
    intro s s' hr h
    simp only [run, Option.some.injEq] at h
    exact h ▸ hr
  | cons l ls ih =>
    intro s s' hr h
    simp only [run] at h
    split at h
    · rename_i s1 hstep
      exact ih (Reachable.next l hr hstep) h
    · exact absurd h (by simp)

theorem reachable_runD (cap : Nat) (s0 : State) (ls : List Label) :
    Reachable cap s0 (runD cap s0 ls) := by
  unfold runD
  cases h : run cap s0 ls with
  | none => exact Reachable.start
  | some s => exact reachable_run ls Reachable.start h

/-- C8 on the program's own data, after two pushes and a pop. -/
theorem queue_never_exceeds_capacity_witness :
    (initial trafficData NUM_PRODUCERS NUM_CONSUMERS).trafficQueue = [] ∧
    (runD QUEUE_SIZE (initial trafficData NUM_PRODUCERS NUM_CONSUMERS)
        [.produce 0, .produce 1, .consume 0]).trafficQueue.length ≤ QUEUE_SIZE :=
  ⟨rfl, (queue_never_exceeds_capacity QUEUE_SIZE
    (initial trafficData NUM_PRODUCERS NUM_CONSUMERS) _ rfl
    (reachable_runD QUEUE_SIZE _ [.produce 0, .produce 1, .consume 0])).1⟩

/-! ## Enabledness -/

theorem step_produce_none_iff (cap : Nat) (s : State) (i : Nat) :
    step cap s (.produce i) = none ↔
      s.aborted.isSome = true ∨ s.pending[i]? = none ∨ s.pending[i]? = some [] ∨
        cap ≤ s.trafficQueue.length := by
  simp only [step]
  split
  · rename_i h; simp [h]
  · rename_i h
    split
    · rename_i line rest hp
      split
      · rename_i hlt
        simp [h, hp]; omega
      · rename_i hlt
        simp [h, hp]; omega
    · rename_i hp
      simp only [true_iff]
      right
      cases hpi : s.pending[i]? with
      | none => simp
      | some c =>
        cases c with
        | nil => simp
        | cons a b => exact absurd hpi (hp a b)

theorem step_consume_none_iff (cap : Nat) (s : State) (j : Nat) :
    step cap s (.consume j) = none ↔
      s.aborted.isSome = true ∨ s.consumers[j]? = none ∨
        s.consumers[j]? = some .finished := by
  simp only [step]
  split
  · rename_i h; simp [h]
  · rename_i h
    split
    · rename_i hc
      split <;> simp [h, hc]
    · rename_i data hc
      split <;> simp [h, hc]
    · rename_i h1 h2
      simp only [true_iff]
      right
      cases hcj : s.consumers[j]? with
      | none => simp
      | some pc =>
        cases pc with
        | loopTop => exact absurd hcj h1
        | popped d => exact absurd hcj (h2 d)
        | finished => simp

theorem stuck_iff (cap : Nat) (s : State) : s.stuck cap ↔ s.stuckB cap = true := by
  unfold State.stuck State.stuckB
  constructor
  · intro h
    by_cases ha : s.aborted.isSome = true
    · simp [ha]
    · simp only [ha, Bool.false_or, Bool.and_eq_true, List.all_eq_true, Bool.or_eq_true,
        decide_eq_true_eq]
      constructor
      · intro chunk hc
        obtain ⟨i, hi, rfl⟩ := List.getElem_of_mem hc
        have := (step_produce_none_iff cap s i).1 (h (.produce i))
        rcases this with h1 | h1 | h1 | h1
        · exact absurd h1 ha
        · simp [List.getElem?_eq_getElem hi] at h1
        · rw [List.getElem?_eq_getElem hi] at h1
          left
          simp only [Option.some.injEq] at h1
          simp [h1]
        · exact Or.inr h1
      · intro pc hc
        obtain ⟨j, hj, rfl⟩ := List.getElem_of_mem hc
        have := (step_consume_none_iff cap s j).1 (h (.consume j))
        rcases this with h1 | h1 | h1
        · exact absurd h1 ha
        · simp [List.getElem?_eq_getElem hj] at h1
        · rw [List.getElem?_eq_getElem hj] at h1
          simpa using h1
  · intro h l
    simp only [Bool.or_eq_true, Bool.and_eq_true, List.all_eq_true, decide_eq_true_eq] at h
    cases l with
    | produce i =>
      rw [step_produce_none_iff]
      rcases h with h | ⟨h, _⟩
      · exact Or.inl h
      · right
        cases hpi : s.pending[i]? with
        | none => simp
        | some c =>
          have hm : c ∈ s.pending := List.getElem?_mem hpi
          rcases h c hm with h1 | h1
          · right; left
            cases c with
            | nil => rfl
            | cons a b => simp at h1
          · right; right; exact h1
    | consume j =>
      rw [step_consume_none_iff]
      rcases h with h | ⟨_, h⟩
      · exact Or.inl h
      · right
        cases hcj : s.consumers[j]? with
        | none => simp
        | some pc =>
          have hm : pc ∈ s.consumers := List.getElem?_mem hcj
          right
          rw [h pc hm]

/-! ## Executions of the program that lose records or block -/

/-- Whatever the producers still hold, a consumer at the top of its loop that
finds the queue empty returns. -/
theorem consumer_returns_on_empty_queue (cap : Nat) (s : State) (j : Nat)
    (ha : s.aborted = none) (hc : s.consumers[j]? = some .loopTop)
    (hq : s.trafficQueue = []) :
    step cap s (.consume j) = some { s with consumers := s.consumers.set j .finished } := by
  simp only [step, ha, hc, hq]
  rfl

/-- C6. On the program's own data and configuration: producer 0 pushes its first
record, consumer 0 pops and merges it and, back at the top of its loop, finds
the queue empty and returns, although both producers still hold records they
have not pushed (three and four of them). -/
theorem consumer_returns_on_transient_empty :
    ∃ s, run QUEUE_SIZE (initial trafficData NUM_PRODUCERS NUM_CONSUMERS)
        [.produce 0, .consume 0, .consume 0, .consume 0] = some s ∧
      s.consumers[0]? = some ConsumerPC.finished ∧
      s.trafficQueue = [] ∧
      s.aborted = none ∧
      s.producersDone = false ∧
      s.pending.map List.length = [3, 4] :=
  ⟨_, rfl, by decide⟩

/-- C7. With the program's configuration and eleven well-formed records: both
consumers find the queue empty and return, the producers push ten records, and
then the queue is full: producer 1 still holds a record, and no thread can take
a step any more. -/
theorem producer_blocked_forever :
    ∃ s, run QUEUE_SIZE (initial elevenRecords NUM_PRODUCERS NUM_CONSUMERS)
        [.consume 0, .consume 1,
         .produce 0, .produce 0, .produce 0, .produce 0, .produce 0,
         .produce 1, .produce 1, .produce 1, .produce 1, .produce 1] = some s ∧
      (s.pending = [[], ["2025-03-28 08:10:00,TL3,1".toList]] ∧
        s.producersDone = false ∧
        s.consumersDone = true ∧
        s.aborted = none ∧
        s.trafficQueue.length = QUEUE_SIZE) ∧
      s.stuck QUEUE_SIZE :=
  ⟨_, rfl, by decide, (stuck_iff _ _).2 (by decide)⟩

/-- C1. On the program's own data and configuration there is an execution in
which every thread has returned and the table holds `TL1: 5, TL2: 6`, while the
eight well-formed records add up to `TL1: 14, TL2: 14, TL3: 12`: each producer
pushes one record, the consumers merge these two and return on the empty
queue, and the six records pushed afterwards stay in the queue for good. -/
theorem records_dropped :
    ∃ s, run QUEUE_SIZE (initial trafficData NUM_PRODUCERS NUM_CONSUMERS)
        [.produce 0, .produce 1, .consume 0, .consume 1, .consume 0, .consume 1,
         .consume 0, .consume 1,
         .produce 0, .produce 0, .produce 0, .produce 1, .produce 1, .produce 1] = some s ∧
      (s.producersDone = true ∧ s.consumersDone = true ∧ s.aborted = none ∧
        s.congestionData = [("TL1".toList, 5), ("TL2".toList, 6)] ∧
        s.trafficQueue.length = 6 ∧
        trafficRecords.map Record.line = trafficData ∧
        (∀ r ∈ trafficRecords, r.WF) ∧
        sumFor "TL1".toList trafficRecords = 14 ∧
        sumFor "TL2".toList trafficRecords = 14 ∧
        sumFor "TL3".toList trafficRecords = 12 ∧
        s.congestionData.total "TL1".toList = 5 ∧
        s.congestionData.total "TL2".toList = 6 ∧
        s.congestionData.total "TL3".toList = 0) ∧
      s.stuck QUEUE_SIZE :=
  ⟨_, rfl, by decide, (stuck_iff _ _).2 (by decide)⟩

/-- The same program does merge every record when the scheduler lets the
producers push all eight records before the consumers look at the queue. -/
theorem records_merged_when_producers_run_first :
    ∃ s, run QUEUE_SIZE (initial trafficData NUM_PRODUCERS NUM_CONSUMERS)
        [.produce 0, .produce 0, .produce 0, .produce 0,
         .produce 1, .produce 1, .produce 1, .produce 1,
         .consume 0, .consume 0, .consume 1, .consume 1, .consume 0, .consume 0,
         .consume 1, .consume 1, .consume 0, .consume 0, .consume 1, .consume 1,
         .consume 0, .consume 0, .consume 1, .consume 1, .consume 0, .consume 1] = some s ∧
      s.producersDone = true ∧ s.consumersDone = true ∧ s.aborted = none ∧
      s.trafficQueue = [] ∧
      s.congestionData = exampleTable :=
  ⟨_, rfl, by decide⟩

/-! ## Parsing -/

theorem fields_ne_nil (s : Str) : fields s ≠ [] := by
  cases s with
  | nil => simp [fields]
  | cons c rest =>
    simp only [fields]
    split
    · simp
    · split <;> simp

theorem getline_fst (s : Str) : (getline s).1 = (fields s).headD [] := by
  induction s with
  | nil => rfl
  | cons c rest ih =>
    simp only [getline, fields]
    split
    · rfl
    · rw [ih]
      cases h : fields rest with
      | nil => exact absurd h (fields_ne_nil rest)
      | cons f fs => rfl

theorem fields_getline_snd (s : Str) :
    fields (getline s).2 = if (fields s).tail = [] then [[]] else (fields s).tail := by
  induction s with
  | nil => rfl
  | cons c rest ih =>
    simp only [getline, fields]
    split
    · simp [fields_ne_nil]
    · rw [ih]
      cases h : fields rest with
      | nil => exact absurd h (fields_ne_nil rest)
      | cons f fs => rfl

theorem getline_second (s : Str) : (getline (getline s).2).1 = field s 1 := by
  rw [getline_fst, fields_getline_snd, field]
  cases h : fields s with
  | nil => exact absurd h (fields_ne_nil s)
  | cons f fs =>
    cases fs with
    | nil => rfl
    | cons g gs => rfl

theorem getline_third (s : Str) :
    (getline (getline (getline s).2).2).1 = field s 2 := by
  rw [getline_fst, fields_getline_snd, fields_getline_snd, field]
  cases h : fields s with
  | nil => exact absurd h (fields_ne_nil s)
  | cons f fs =>
    cases fs with
    | nil => rfl
    | cons g gs =>
      cases gs with
      | nil => rfl
      | cons k ks => rfl

theorem parseRecord_eq (data : Str) :
    parseRecord data =
      match stoi (field data 2) with
      | .ok numCars => .ok (field data 1, numCars)
      | .error e => .error e := by
  have h1 : (getline (getline data).2).1 = field data 1 := getline_second data
  have h2 : (getline (getline (getline data).2).2).1 = field data 2 := getline_third data
  simp only [parseRecord, h1, h2]


theorem readSign_of_digit (d : Char) (r : Str) (hd : isDigit d = true) :
    readSign (d :: r) = (false, d :: r) := by
  unfold readSign
  split
  · rename_i r' h
    simp only [List.cons.injEq] at h
    rw [h.1] at hd
    exact absurd hd (by decide)
  · rename_i r' h
    simp only [List.cons.injEq] at h
    rw [h.1] at hd
    exact absurd hd (by decide)
  · rfl

theorem not_isSpace_of_isDigit (d : Char) (hd : isDigit d = true) : isSpace d = false := by
  simp only [isDigit, isSpace, Bool.and_eq_true, decide_eq_true_eq] at hd ⊢
  simp only [Bool.or_eq_false_iff, Bool.and_eq_false_iff, decide_eq_false_iff_not]
  omega

theorem takeWhile_digits (ds rest : Str) (hds : ∀ c ∈ ds, isDigit c = true)
    (hrest : ∀ c, rest.head? = some c → isDigit c = false) :
    (ds ++ rest).takeWhile isDigit = ds := by
  rw [List.takeWhile_append_of_pos hds]
  cases rest with
  | nil => simp
  | cons c r =>
    have := hrest c rfl
    simp [List.takeWhile_cons, this]

theorem dropWhile_spaces (ws body : Str) (hws : ∀ c ∈ ws, isSpace c = true)
    (hbody : ∀ c, body.head? = some c → isSpace c = false) :
    (ws ++ body).dropWhile isSpace = body := by
  rw [List.dropWhile_append_of_pos hws]
  cases body with
  | nil => simp
  | cons c r =>
    have := hbody c rfl
    simp [List.dropWhile_cons, this]

theorem stoi_of_leadingInt {s : Str} {v : Int} (h : LeadingInt s v) : stoi s = .ok v := by
  obtain ⟨ws, sign, ds, rest, hs, hws, hsign, hne, hds, hrest, hv, hmin, hmax⟩ := h
  obtain ⟨d, ds', rfl⟩ : ∃ d ds', ds = d :: ds' := by
    cases ds with
    | nil => exact absurd rfl hne
    | cons d ds' => exact ⟨d, ds', rfl⟩
  have hd : isDigit d = true := hds d (List.mem_cons_self _ _)
  have hdrop : s.dropWhile isSpace = sign ++ (d :: ds') ++ rest := by
    rw [hs, List.append_assoc, List.append_assoc]
    rw [dropWhile_spaces ws _ hws, List.append_assoc]
    intro c hc
    rcases hsign with rfl | rfl | rfl
    · simp only [List.nil_append, List.cons_append, List.head?_cons, Option.some.injEq] at hc
      exact hc ▸ not_isSpace_of_isDigit d hd
    · simp only [List.cons_append, List.head?_cons, Option.some.injEq] at hc
      rw [← hc]; decide
    · simp only [List.cons_append, List.head?_cons, Option.some.injEq] at hc
      rw [← hc]; decide
  have hsigned : readSign (s.dropWhile isSpace) = (decide (sign = ['-']), (d :: ds') ++ rest) := by
    rw [hdrop]
    rcases hsign with rfl | rfl | rfl
    · simp only [List.nil_append, List.cons_append]
      rw [readSign_of_digit d _ hd]
      simp
    · rfl
    · rfl
  unfold stoi
  simp only [hsigned, takeWhile_digits _ _ hds hrest]
  rw [if_neg hne]
  rw [← hv, if_pos ⟨hmin, hmax⟩]

theorem readSign_cases (body : Str) :
    ∃ sign, (sign = [] ∨ sign = ['-'] ∨ sign = ['+']) ∧
      body = sign ++ (readSign body).2 ∧ (readSign body).1 = decide (sign = ['-']) := by
  unfold readSign
  split
  · exact ⟨['-'], Or.inr (Or.inl rfl), rfl, rfl⟩
  · exact ⟨['+'], Or.inr (Or.inr rfl), rfl, rfl⟩
  · exact ⟨[], Or.inl rfl, rfl, rfl⟩

theorem leadingInt_of_stoi {s : Str} {v : Int} (h : stoi s = .ok v) : LeadingInt s v := by
  unfold stoi at h
  obtain ⟨sign, hsign, hbody, hflag⟩ := readSign_cases (s.dropWhile isSpace)
  simp only at h
  split at h
  · cases h
  · rename_i hne
    split at h
    · rename_i hrange
      simp only [Except.ok.injEq] at h
      refine ⟨s.takeWhile isSpace, sign,
        (readSign (s.dropWhile isSpace)).2.takeWhile isDigit,
        (readSign (s.dropWhile isSpace)).2.dropWhile isDigit, ?_, ?_, hsign, hne, ?_, ?_, ?_, ?_, ?_⟩
      · rw [List.append_assoc, List.takeWhile_append_dropWhile, List.append_assoc, ← hbody,
          List.takeWhile_append_dropWhile]
      · intro c hc
        exact List.mem_takeWhile_imp hc
      · intro c hc
        exact List.mem_takeWhile_imp hc
      · intro c hc
        have := List.head?_dropWhile_not isDigit (readSign (s.dropWhile isSpace)).2
        rw [hc] at this
        exact this
      · rw [← h, hflag]
      · rw [← h]; exact hrange.1
      · rw [← h]; exact hrange.2
    · cases h

theorem stoi_ok_iff (s : Str) (v : Int) : stoi s = .ok v ↔ LeadingInt s v :=
  ⟨leadingInt_of_stoi, stoi_of_leadingInt⟩


theorem field_two_of_short (data : Str) (h : (fields data).length < 3) : field data 2 = [] := by
  unfold field
  exact List.getD_eq_default _ _ (by omega)

/-- C9 (amended). The parsing of `consumer` fails exactly when `std::stoi`
cannot convert the third comma-separated field: when that field does not
start, after optional white space and an optional sign, with a decimal number
that fits an `int`.  When it does start with such a number, parsing succeeds
with the second field as `lightID` and the signed number as count, whatever
follows the digits and however many fields follow the third.  A line with
fewer than three fields has an empty third field and fails. -/
theorem parseRecord_fails_iff (data : Str) :
    ((∃ e, parseRecord data = .error e) ↔ ¬ ∃ v, LeadingInt (field data 2) v) ∧
    (∀ v, LeadingInt (field data 2) v → parseRecord data = .ok (field data 1, v)) ∧
    ((fields data).length < 3 → parseRecord data = .error .invalid_argument) := by
  refine ⟨?_, ?_, ?_⟩
  · rw [parseRecord_eq]
    cases h : stoi (field data 2) with
    | ok v =>
      constructor
      · rintro ⟨e, he⟩
        cases he
      · intro hn
        exact absurd ⟨v, leadingInt_of_stoi h⟩ hn
    | error e =>
      constructor
      · rintro - ⟨v, hv⟩
        rw [stoi_of_leadingInt hv] at h
        cases h
      · intro _
        exact ⟨e, rfl⟩
  · intro v hv
    rw [parseRecord_eq, stoi_of_leadingInt hv]
  · intro h
    rw [parseRecord_eq, field_two_of_short data h]
    rfl

/-- C9 (amended) on a line with a negative count: it is parsed. -/
theorem parseRecord_fails_iff_witness :
    LeadingInt (field negativeCountLine 2) (-5) ∧
    parseRecord negativeCountLine = .ok ("TL1".toList, -5) :=
  have hL : LeadingInt (field negativeCountLine 2) (-5) :=
    ⟨[], ['-'], ['5'], [], by decide, by decide, by decide, by decide, by decide,
      by decide, by decide, by decide, by decide⟩
  ⟨hL, (parseRecord_fails_iff negativeCountLine).2.1 (-5) hL⟩

/-- C9 (counterexample). A line with four fields, a line with a negative count
and a line whose count is followed by a letter are all parsed without error,
and the consumer merges them into the table. -/
theorem lenient_parse_accepts :
    (fields fourFieldLine).length = 4 ∧
    parseRecord fourFieldLine = .ok ("TL1".toList, 5) ∧
    parseRecord negativeCountLine = .ok ("TL1".toList, -5) ∧
    parseRecord trailingLetterLine = .ok ("TL1".toList, 5) ∧
    processRecord fourFieldLine [] = .ok [("TL1".toList, 5)] ∧
    processRecord negativeCountLine [] = .ok [("TL1".toList, -5)] ∧
    processRecord trailingLetterLine [] = .ok [("TL1".toList, 5)] := by
  decide

/-! ## A failing conversion is not handled -/

/-- C10 (amended). When `std::stoi` throws on the record a consumer has popped,
the step leaves the aggregation table as it is, the exception leaves the thread
function and aborts the process, and from then on no thread takes a step: the
records not merged so far are never merged. -/
theorem stoi_failure_aborts (cap : Nat) (s : State) (j : Nat) (data : Str) (e : StoiError)
    (ha : s.aborted = none) (hc : s.consumers[j]? = some (.popped data))
    (he : parseRecord data = .error e) :
    ∃ s', step cap s (.consume j) = some s' ∧
      s'.congestionData = s.congestionData ∧
      s'.aborted = some e ∧
      s'.stuck cap := by
  have hp : processRecord data s.congestionData = .error e := by
    simp only [processRecord, he]
  refine ⟨{ s with aborted := some e }, ?_, rfl, rfl, ?_⟩
  · simp only [step, ha, hc, hp]
    rfl
  · rw [stuck_iff]
    simp [State.stuckB]

/-- C10 (amended) on the record `...,TL1,abc` popped by consumer 0. -/
theorem stoi_failure_aborts_witness :
    (runD QUEUE_SIZE (initial badCountData NUM_PRODUCERS NUM_CONSUMERS)
      [.produce 0, .produce 1, .consume 0, .consume 1]).aborted = none ∧
    (runD QUEUE_SIZE (initial badCountData NUM_PRODUCERS NUM_CONSUMERS)
      [.produce 0, .produce 1, .consume 0, .consume 1]).consumers[0]? =
        some (.popped "2025-03-28 08:00:00,TL1,abc".toList) ∧
    parseRecord "2025-03-28 08:00:00,TL1,abc".toList = .error .invalid_argument ∧
    ∃ s', step QUEUE_SIZE
        (runD QUEUE_SIZE (initial badCountData NUM_PRODUCERS NUM_CONSUMERS)
          [.produce 0, .produce 1, .consume 0, .consume 1]) (.consume 0) = some s' ∧
      s'.congestionData =
        (runD QUEUE_SIZE (initial badCountData NUM_PRODUCERS NUM_CONSUMERS)
          [.produce 0, .produce 1, .consume 0, .consume 1]).congestionData ∧
      s'.aborted = some .invalid_argument ∧
      s'.stuck QUEUE_SIZE :=
  ⟨by decide, by decide, by decide,
    stoi_failure_aborts QUEUE_SIZE _ 0 "2025-03-28 08:00:00,TL1,abc".toList .invalid_argument
      (by decide) (by decide) (by decide)⟩

/-- C10 (counterexample). With the program's configuration and the two records
`...,TL1,abc` and `...,TL2,3`: both are pushed and popped, consumer 0 fails on
the first, and the process is aborted with an empty table while consumer 1
still holds the well-formed second record, which is never merged.  And a record
with a wrong field count (four fields) is not skipped: it changes the table. -/
theorem malformed_record_stops_pipeline :
    (∃ s, run QUEUE_SIZE (initial badCountData NUM_PRODUCERS NUM_CONSUMERS)
        [.produce 0, .produce 1, .consume 0, .consume 1, .consume 0] = some s ∧
      s.aborted = some .invalid_argument ∧
      s.consumers = [.popped "2025-03-28 08:00:00,TL1,abc".toList,
                     .popped "2025-03-28 08:01:00,TL2,3".toList] ∧
      s.congestionData = [] ∧
      parseRecord "2025-03-28 08:01:00,TL2,3".toList = .ok ("TL2".toList, 3) ∧
      s.stuck QUEUE_SIZE) ∧
    (fields fourFieldLine).length = 4 ∧
    processRecord fourFieldLine [] = .ok [("TL1".toList, 5)] :=
  ⟨⟨_, rfl, by decide, by decide, by decide, by decide, (stuck_iff _ _).2 (by decide)⟩,
    by decide⟩

/-! ## The aggregation table -/

theorem addInt32_eq {a b : Int} (h0 : INT_MIN ≤ a + b) (h1 : a + b ≤ INT_MAX) :
    addInt32 a b = a + b := by
  unfold addInt32
  unfold INT_MIN at h0
  unfold INT_MAX at h1
  omega

theorem Table.mem_add {k : Str} {n : Int} {t : Table} {e : Str × Int}
    (he : e ∈ Table.add k n t) : e.1 = k ∨ e ∈ t := by
  induction t with
  | nil =>
    simp only [Table.add, List.mem_singleton] at he
    exact Or.inl (by rw [he])
  | cons hd tl ih =>
    obtain ⟨k0, v0⟩ := hd
    simp only [Table.add] at he
    split at he
    · rcases List.mem_cons.1 he with h | h
      · exact Or.inl (by rw [h])
      · exact Or.inr h
    · split at he
      · rename_i hk
        rcases List.mem_cons.1 he with h | h
        · exact Or.inl (by rw [h, hk])
        · exact Or.inr (List.mem_cons_of_mem _ h)
      · rcases List.mem_cons.1 he with h | h
        · exact Or.inr (by rw [h]; exact List.mem_cons_self _ _)
        · rcases ih h with h' | h'
          · exact Or.inl h'
          · exact Or.inr (List.mem_cons_of_mem _ h')

theorem Table.add_wf {k : Str} {n : Int} {t : Table} (h : t.WF) : (Table.add k n t).WF := by
  induction t with
  | nil => simp [Table.add, Table.WF]
  | cons hd tl ih =>
    obtain ⟨k0, v0⟩ := hd
    unfold Table.WF at h ih ⊢
    rw [List.pairwise_cons] at h
    simp only [Table.add]
    split
    · rename_i hlt
      rw [List.pairwise_cons]
      refine ⟨?_, List.pairwise_cons.2 h⟩
      intro e he
      rcases List.mem_cons.1 he with h' | h'
      · rw [h']; exact hlt
      · exact lt_trans hlt (h.1 e h')
    · split
      · rw [List.pairwise_cons]
        exact ⟨h.1, h.2⟩
      · rename_i hnlt hne
        rw [List.pairwise_cons]
        refine ⟨?_, ih h.2⟩
        intro e he
        rcases Table.mem_add he with h' | h'
        · rw [h']
          exact lt_of_le_of_ne (not_lt.1 hnlt) (fun hk => hne hk.symm)
        · exact h.1 e h'

theorem Table.lookup_eq_none {k : Str} {t : Table} (h : ∀ e ∈ t, k < e.1) :
    Table.lookup k t = none := by
  induction t with
  | nil => rfl
  | cons hd tl ih =>
    obtain ⟨k0, v0⟩ := hd
    simp only [Table.lookup]
    have hlt : k < k0 := h (k0, v0) (List.mem_cons_self _ _)
    rw [if_neg (ne_of_lt hlt)]
    exact ih (fun e he => h e (List.mem_cons_of_mem _ he))

theorem Table.lookup_add_self {k : Str} {n : Int} {t : Table} (h : t.WF) :
    Table.lookup k (Table.add k n t) = some (addInt32 ((Table.lookup k t).getD 0) n) := by
  induction t with
  | nil => simp [Table.add, Table.lookup]
  | cons hd tl ih =>
    obtain ⟨k0, v0⟩ := hd
    unfold Table.WF at h ih
    rw [List.pairwise_cons] at h
    simp only [Table.add]
    split
    · rename_i hlt
      have hnone : Table.lookup k tl = none :=
        Table.lookup_eq_none (fun e he => lt_trans hlt (h.1 e he))
      simp [Table.lookup, ne_of_lt hlt, hnone]
    · split
      · rename_i hk
        simp [Table.lookup, hk]
      · rename_i hne
        simp only [Table.lookup, if_neg hne]
        exact ih h.2

theorem Table.lookup_add_other {k k' : Str} {n : Int} {t : Table} (hk : k' ≠ k) :
    Table.lookup k' (Table.add k n t) = Table.lookup k' t := by
  induction t with
  | nil => simp [Table.add, Table.lookup, hk]
  | cons hd tl ih =>
    obtain ⟨k0, v0⟩ := hd
    simp only [Table.add]
    split
    · simp [Table.lookup, hk]
    · split
      · rename_i h0
        have : k' ≠ k0 := h0 ▸ hk
        simp [Table.lookup, this]
      · simp only [Table.lookup]
        rw [ih]

theorem Table.mem_keys_iff {k : Str} {t : Table} :
    k ∈ t.map Prod.fst ↔ (Table.lookup k t).isSome = true := by
  induction t with
  | nil => simp [Table.lookup]
  | cons hd tl ih =>
    obtain ⟨k0, v0⟩ := hd
    simp only [List.map_cons, List.mem_cons, Table.lookup]
    by_cases hk : k = k0
    · simp [hk]
    · simp only [hk, false_or, if_false]
      exact ih

/-! ## Merging well-formed records -/

theorem fields_of_no_comma (s : Str) (h : ',' ∉ s) : fields s = [s] := by
  induction s with
  | nil => rfl
  | cons c rest ih =>
    have hc : c ≠ ',' := fun hc => h (by rw [hc]; exact List.mem_cons_self _ _)
    have hrest : ',' ∉ rest := fun hr => h (List.mem_cons_of_mem _ hr)
    simp only [fields, if_neg hc, ih hrest]

theorem fields_append_comma (s rest : Str) (h : ',' ∉ s) :
    fields (s ++ ',' :: rest) = s :: fields rest := by
  induction s with
  | nil => simp [fields]
  | cons c tl ih =>
    have hc : c ≠ ',' := fun hc => h (by rw [hc]; exact List.mem_cons_self _ _)
    have htl : ',' ∉ tl := fun hr => h (List.mem_cons_of_mem _ hr)
    have ih' := ih htl
    rw [List.cons_append]
    simp only [fields, if_neg hc]
    rw [ih']

theorem not_comma_of_isDigit (c : Char) (h : isDigit c = true) : c ≠ ',' := by
  intro hc
  rw [hc] at h
  exact absurd h (by decide)

theorem Record.fields_line (r : Record) (h : r.WF) :
    fields r.line = [r.timestamp, r.lightID, r.count] := by
  obtain ⟨h1, h2, -, h4⟩ := h
  have h3 : ',' ∉ r.count := fun hm => not_comma_of_isDigit _ (h4 _ hm) rfl
  unfold Record.line
  rw [fields_append_comma _ _ h1, fields_append_comma _ _ h2, fields_of_no_comma _ h3]

theorem Record.parse_line (r : Record) (h : r.WF) (hfit : (r.vehicleCount : Int) ≤ INT_MAX) :
    parseRecord r.line = .ok (r.lightID, (r.vehicleCount : Int)) := by
  have hf := Record.fields_line r h
  have h1 : field r.line 1 = r.lightID := by simp [field, hf]
  have h2 : field r.line 2 = r.count := by simp [field, hf]
  have hL : LeadingInt (field r.line 2) (r.vehicleCount : Int) := by
    rw [h2]
    refine ⟨[], [], r.count, [], by simp, by simp, Or.inl rfl, h.2.2.1, h.2.2.2, by simp,
      by simp [signedValue, Record.vehicleCount], ?_, hfit⟩
    have : (0 : Int) ≤ (r.vehicleCount : Int) := Int.ofNat_nonneg _
    unfold INT_MIN
    omega
  rw [parseRecord_eq, stoi_of_leadingInt hL, h1]


theorem sumFor_append (k : Str) (a b : List Record) :
    sumFor k (a ++ b) = sumFor k a + sumFor k b := by
  simp [sumFor, List.filter_append, List.map_append, List.sum_append]

theorem sumFor_singleton (k : Str) (r : Record) :
    sumFor k [r] = if r.lightID = k then r.vehicleCount else 0 := by
  by_cases h : r.lightID = k <;> simp [sumFor, List.filter_cons, h]

theorem sumFor_eq_zero (k : Str) (recs : List Record) (h : k ∉ recs.map Record.lightID) :
    sumFor k recs = 0 := by
  have : recs.filter (fun r => decide (r.lightID = k)) = [] := by
    rw [List.filter_eq_nil_iff]
    intro r hr
    simp only [decide_eq_true_eq]
    intro hk
    exact h (List.mem_map.2 ⟨r, hr, hk⟩)
  simp [sumFor, this]

theorem sumFor_perm (k : Str) {a b : List Record} (h : a.Perm b) : sumFor k a = sumFor k b := by
  unfold sumFor
  exact ((h.filter _).map _).sum_eq

theorem Merged.step {t : Table} {merged : List Record} (r : Record) (h : Merged t merged)
    (hfit : (sumFor r.lightID (merged ++ [r]) : Int) ≤ INT_MAX) :
    Merged (Table.add r.lightID (r.vehicleCount : Int) t) (merged ++ [r]) := by
  obtain ⟨hwf, hl⟩ := h
  refine ⟨Table.add_wf hwf, ?_⟩
  intro k
  by_cases hk : k = r.lightID
  · subst hk
    rw [Table.lookup_add_self hwf]
    have hold : (Table.lookup r.lightID t).getD 0 = (sumFor r.lightID merged : Int) := by
      rw [hl]
      by_cases hm : r.lightID ∈ merged.map Record.lightID
      · simp [hm]
      · simp [hm, sumFor_eq_zero _ _ hm]
    have hmem : r.lightID ∈ (merged ++ [r]).map Record.lightID := by simp
    rw [if_pos hmem, hold]
    have hsum : sumFor r.lightID (merged ++ [r]) = sumFor r.lightID merged + r.vehicleCount := by
      rw [sumFor_append, sumFor_singleton, if_pos rfl]
    rw [hsum] at hfit ⊢
    push_cast at hfit ⊢
    rw [addInt32_eq]
    · have h1 : (0 : Int) ≤ (sumFor r.lightID merged : Int) := Int.ofNat_nonneg _
      have h2 : (0 : Int) ≤ (r.vehicleCount : Int) := Int.ofNat_nonneg _
      unfold INT_MIN
      omega
    · exact hfit
  · rw [Table.lookup_add_other hk, hl]
    have hne : ¬ r.lightID = k := fun h => hk h.symm
    have hmem : k ∈ (merged ++ [r]).map Record.lightID ↔ k ∈ merged.map Record.lightID := by
      simp only [List.map_append, List.mem_append, List.map_cons, List.map_nil,
        List.mem_singleton]
      constructor
      · rintro (h | h)
        · exact h
        · exact absurd h hk
      · exact Or.inl
    have hsum : sumFor k (merged ++ [r]) = sumFor k merged := by
      rw [sumFor_append, sumFor_singleton, if_neg hne, Nat.add_zero]
    by_cases hm : k ∈ merged.map Record.lightID
    · rw [if_pos hm, if_pos (hmem.2 hm), hsum]
    · rw [if_neg hm, if_neg (fun h => hm (hmem.1 h))]

theorem vehicleCount_le_sumFor (r : Record) (recs : List Record) (h : r ∈ recs) :
    r.vehicleCount ≤ sumFor r.lightID recs := by
  unfold sumFor
  apply List.single_le_sum (fun _ _ => Nat.zero_le _)
  exact List.mem_map.2 ⟨r, List.mem_filter.2 ⟨h, by simp⟩, rfl⟩

theorem consumeAll_merged (rest : List Record) :
    ∀ (merged : List Record) (t : Table), Merged t merged →
      (∀ r ∈ rest, r.WF) →
      (∀ k ∈ (merged ++ rest).map Record.lightID,
        (sumFor k (merged ++ rest) : Int) ≤ INT_MAX) →
      ∃ t', consumeAll (rest.map Record.line) t = .ok t' ∧ Merged t' (merged ++ rest) := by
  induction rest with
  | nil =>
    intro merged t h _ _
    exact ⟨t, rfl, by simpa using h⟩
  | cons r rest ih =>
    intro merged t h hwf hfit
    have hr : r.lightID ∈ (merged ++ r :: rest).map Record.lightID := by simp
    have hfitr := hfit _ hr
    have hcount : (r.vehicleCount : Int) ≤ INT_MAX := by
      have := vehicleCount_le_sumFor r (merged ++ r :: rest) (by simp)
      have : (r.vehicleCount : Int) ≤ (sumFor r.lightID (merged ++ r :: rest) : Int) := by
        exact_mod_cast this
      exact le_trans this hfitr
    have hstepfit : (sumFor r.lightID (merged ++ [r]) : Int) ≤ INT_MAX := by
      have : sumFor r.lightID (merged ++ [r]) ≤ sumFor r.lightID (merged ++ r :: rest) := by
        have e : merged ++ r :: rest = (merged ++ [r]) ++ rest := by simp
        rw [e, sumFor_append _ (merged ++ [r]) rest]
        exact Nat.le_add_right _ _
      have : (sumFor r.lightID (merged ++ [r]) : Int)
          ≤ (sumFor r.lightID (merged ++ r :: rest) : Int) := by exact_mod_cast this
      exact le_trans this hfitr
    have hparse := Record.parse_line r (hwf r (List.mem_cons_self _ _)) hcount
    have e : merged ++ r :: rest = (merged ++ [r]) ++ rest := by simp
    obtain ⟨t', ht', hm'⟩ := ih (merged ++ [r]) _ (Merged.step r h hstepfit)
      (fun x hx => hwf x (List.mem_cons_of_mem _ hx)) (by rw [← e]; exact hfit)
    refine ⟨t', ?_, by rw [e]; exact hm'⟩
    simp only [List.map_cons, consumeAll, processRecord, hparse]
    exact ht'


/-- C3 (amended). For every list of well-formed records whose counts add up, for
each `lightID`, to at most `INT_MAX`, applying the consumer's parse-and-merge
step to each line exactly once, in any order, starting from the empty table,
succeeds and yields a table (keys strictly ascending, hence unique) whose keys
are exactly the `lightID`s occurring in the list and whose value at each of
them is the sum of the counts of the lines with that `lightID`.  On the eight
lines of the end-to-end example the table is `TL1: 14, TL2: 14, TL3: 12`. -/
theorem merge_each_line_once :
    (∀ recs order : List Record, (∀ r ∈ recs, r.WF) →
      (∀ k ∈ recs.map Record.lightID, (sumFor k recs : Int) ≤ INT_MAX) →
      order.Perm recs →
      ∃ t, consumeAll (order.map Record.line) [] = .ok t ∧ t.WF ∧
        (∀ k, k ∈ t.map Prod.fst ↔ k ∈ recs.map Record.lightID) ∧
        (∀ k ∈ recs.map Record.lightID, Table.lookup k t = some (sumFor k recs : Int))) ∧
    exampleRecords.map Record.line = exampleLines ∧
    consumeAll exampleLines [] = .ok exampleTable := by
  refine ⟨?_, by decide, by decide⟩
  intro recs order hwf hfit hperm
  have hmemiff : ∀ k, k ∈ order.map Record.lightID ↔ k ∈ recs.map Record.lightID :=
    fun k => (hperm.map Record.lightID).mem_iff
  have hinit : Merged [] [] := ⟨List.Pairwise.nil, fun k => by simp [Table.lookup]⟩
  obtain ⟨t, ht, hwft, hl⟩ := consumeAll_merged order [] [] hinit
    (fun r hr => hwf r (hperm.mem_iff.1 hr))
    (by
      intro k hk
      rw [List.nil_append] at hk ⊢
      rw [sumFor_perm k hperm]
      exact hfit k ((hmemiff k).1 hk))
  rw [List.nil_append] at hl
  refine ⟨t, ht, hwft, ?_, ?_⟩
  · intro k
    rw [Table.mem_keys_iff, hl k, ← hmemiff k]
    by_cases hk : k ∈ order.map Record.lightID <;> simp [hk]
  · intro k hk
    rw [hl k, if_pos ((hmemiff k).2 hk), sumFor_perm k hperm]

/-- C3 (amended) on the eight records of the end-to-end example, merged in
reverse order. -/
theorem merge_each_line_once_witness :
    (∀ r ∈ exampleRecords, r.WF) ∧
    (∀ k ∈ exampleRecords.map Record.lightID, (sumFor k exampleRecords : Int) ≤ INT_MAX) ∧
    exampleRecords.reverse.Perm exampleRecords ∧
    ∃ t, consumeAll (exampleRecords.reverse.map Record.line) [] = .ok t ∧ t.WF ∧
      (∀ k, k ∈ t.map Prod.fst ↔ k ∈ exampleRecords.map Record.lightID) ∧
      (∀ k ∈ exampleRecords.map Record.lightID,
        Table.lookup k t = some (sumFor k exampleRecords : Int)) :=
  ⟨by decide, by decide, List.reverse_perm _,
    merge_each_line_once.1 exampleRecords exampleRecords.reverse (by decide) (by decide)
      (List.reverse_perm _)⟩

/-- C3 (counterexample). Two well-formed lines for light `A` with the counts
`2147483647` and `1`: the sum of the counts is `2147483648`, but the `int` in
the table wraps and the merged table holds `A: -2147483648`.  And on the single
well-formed line with the count `2147483648` the conversion `std::stoi` throws
`out_of_range`: nothing is merged at all. -/
theorem sum_beyond_int_not_kept :
    (∀ r ∈ overflowRecords, r.WF) ∧
    overflowRecords.map Record.line = ["t,A,2147483647".toList, "t,A,1".toList] ∧
    sumFor "A".toList overflowRecords = 2147483648 ∧
    consumeAll (overflowRecords.map Record.line) [] = .ok [("A".toList, -2147483648)] ∧
    tooLargeRecord.WF ∧
    tooLargeRecord.line = "t,A,2147483648".toList ∧
    tooLargeRecord.vehicleCount = 2147483648 ∧
    consumeAll [tooLargeRecord.line] [] = .error .out_of_range := by
  decide

/-! ## The ranking -/

theorem byTotalDesc_false_iff (a b : Str × Int) : byTotalDesc b a = false ↔ a.2 ≥ b.2 := by
  simp [byTotalDesc]

theorem StdSortContract.sorted_ge {sort : List (Str × Int) → List (Str × Int)}
    (h : StdSortContract sort) (l : List (Str × Int)) :
    (sort l).Pairwise (fun a b => a.2 ≥ b.2) :=
  (h.sorted l).imp (fun {a b} hab => (byTotalDesc_false_iff a b).1 hab)

theorem getTopN_eq_take (sort : List (Str × Int) → List (Str × Int)) (table : Table) (N : Nat) :
    getTopN sort table (N : Int) = (sort table).take (min N (sort table).length) := by
  have h : (min (N : Int) ((sort table).length : Int)).toNat = min N (sort table).length := by
    omega
  simp only [getTopN, h]

theorem Table.WF.nodup_keys {t : Table} (h : t.WF) : (t.map Prod.fst).Nodup := by
  unfold Table.WF at h
  rw [List.Nodup, List.pairwise_map]
  exact h.imp (fun {a b} hab => ne_of_lt hab)

theorem tieKeepingSort_contract : StdSortContract tieKeepingSort := by
  constructor
  · intro l
    exact List.perm_insertionSort _ l
  · intro l
    have : IsTotal (Str × Int) (fun a b => a.2 ≥ b.2) := ⟨fun a b => le_total b.2 a.2⟩
    have : IsTrans (Str × Int) (fun a b => a.2 ≥ b.2) :=
      ⟨fun a b c hab hbc => le_trans hbc hab⟩
    have h := List.sorted_insertionSort (fun a b : Str × Int => a.2 ≥ b.2) l
    exact List.Pairwise.imp (fun {a b} hab => (byTotalDesc_false_iff a b).2 hab) h

theorem tieReversingSort_contract : StdSortContract tieReversingSort := by
  constructor
  · intro l
    exact (List.perm_insertionSort _ l.reverse).trans (List.reverse_perm l)
  · intro l
    have : IsTotal (Str × Int) (fun a b => a.2 ≥ b.2) := ⟨fun a b => le_total b.2 a.2⟩
    have : IsTrans (Str × Int) (fun a b => a.2 ≥ b.2) :=
      ⟨fun a b c hab hbc => le_trans hbc hab⟩
    have h := List.sorted_insertionSort (fun a b : Str × Int => a.2 ≥ b.2) l.reverse
    exact List.Pairwise.imp (fun {a b} hab => (byTotalDesc_false_iff a b).2 hab) h

/-- C4. For every aggregation table (keys strictly ascending), every `N ≥ 0`
and every sorting routine that meets the contract of `std::sort`, the list
reported by `getTopN` has exactly `min N (size of the table)` entries, each of
them is an entry of the table, no `lightID` is reported twice, the reported
totals are non-increasing, every entry of the table that is not reported has a
total less than or equal to every reported total, and for the empty table the
report is empty. -/
theorem getTopN_report (sort : List (Str × Int) → List (Str × Int))
    (hsort : StdSortContract sort) (table : Table) (hwf : table.WF) (N : Nat) :
    (getTopN sort table (N : Int)).length = min N table.length ∧
    (∀ e ∈ getTopN sort table (N : Int), e ∈ table) ∧
    ((getTopN sort table (N : Int)).map Prod.fst).Nodup ∧
    (getTopN sort table (N : Int)).Pairwise (fun a b => a.2 ≥ b.2) ∧
    (∀ e ∈ table, e ∉ getTopN sort table (N : Int) →
      ∀ r ∈ getTopN sort table (N : Int), e.2 ≤ r.2) ∧
    (table = [] → getTopN sort table (N : Int) = []) := by
  have hperm := hsort.perm table
  have hlen : (sort table).length = table.length := hperm.length_eq
  have hsorted := hsort.sorted_ge table
  rw [getTopN_eq_take]
  have hsub : ((sort table).take (min N (sort table).length)).Sublist (sort table) :=
    List.take_sublist _ _
  refine ⟨?_, ?_, ?_, ?_, ?_, ?_⟩
  · rw [List.length_take, hlen]
    omega
  · intro e he
    exact hperm.mem_iff.1 (hsub.subset he)
  · have hnd : ((sort table).map Prod.fst).Nodup :=
      ((hperm.map Prod.fst).nodup_iff).2 hwf.nodup_keys
    exact hnd.sublist (hsub.map Prod.fst)
  · exact hsorted.sublist hsub
  · intro e he hne r hr
    have hmem : e ∈ sort table := hperm.mem_iff.2 he
    rw [← List.take_append_drop (min N (sort table).length) (sort table)] at hmem hsorted
    have hdrop : e ∈ (sort table).drop (min N (sort table).length) := by
      rcases List.mem_append.1 hmem with h | h
      · exact absurd h hne
      · exact h
    exact (List.pairwise_append.1 hsorted).2.2 r hr e hdrop
  · intro ht
    have : sort table = [] := by
      rw [ht] at hperm ⊢
      exact hperm.eq_nil
    simp [this]

/-- C4 on the example table with `N = 2` and a sort that keeps ties in order. -/
theorem getTopN_report_witness :
    StdSortContract tieKeepingSort ∧ exampleTable.WF ∧
    (getTopN tieKeepingSort exampleTable ((2 : Nat) : Int)).length = min 2 exampleTable.length ∧
    (getTopN tieKeepingSort exampleTable ((2 : Nat) : Int)).Pairwise (fun a b => a.2 ≥ b.2) :=
  ⟨tieKeepingSort_contract, by decide,
    (getTopN_report tieKeepingSort tieKeepingSort_contract exampleTable (by decide) 2).1,
    (getTopN_report tieKeepingSort tieKeepingSort_contract exampleTable (by decide) 2).2.2.2.1⟩

theorem sorted_example_cases (s : List (Str × Int)) (hperm : s.Perm exampleTable)
    (hsorted : s.Pairwise (fun a b => a.2 ≥ b.2)) :
    s = exampleTable ∨ s = [("TL2".toList, 14), ("TL1".toList, 14), ("TL3".toList, 12)] := by
  have hmap : s.map Prod.snd = [14, 14, 12] :=
    List.eq_of_perm_of_sorted (r := fun x y : Int => x ≥ y) (hperm.map Prod.snd)
      (List.pairwise_map.2 hsorted) (by decide)
  have hnd : s.Nodup := hperm.nodup_iff.2 (by decide)
  have hmem : ∀ e ∈ s, e = ("TL1".toList, 14) ∨ e = ("TL2".toList, 14) ∨
      e = ("TL3".toList, 12) := by
    intro e he
    have := hperm.mem_iff.1 he
    simpa [exampleTable] using this
  rcases s with _ | ⟨x, _ | ⟨y, _ | ⟨z, _ | ⟨w, t⟩⟩⟩⟩
  · exact absurd hmap (by decide)
  · exact absurd (congrArg List.length hmap) (by simp)
  · exact absurd (congrArg List.length hmap) (by simp)
  · have hx := hmem x (by simp)
    have hy := hmem y (by simp)
    have hz := hmem z (by simp)
    clear hmem hperm hsorted
    rcases hx with rfl | rfl | rfl <;> rcases hy with rfl | rfl | rfl <;>
      rcases hz with rfl | rfl | rfl <;> revert hnd hmap <;> decide
  · exact absurd (congrArg List.length hmap) (by simp)

theorem getTopN_example_cases (sort : List (Str × Int) → List (Str × Int))
    (hsort : StdSortContract sort) :
    (getTopN sort exampleTable 3 = exampleTable ∨
      getTopN sort exampleTable 3 =
        [("TL2".toList, 14), ("TL1".toList, 14), ("TL3".toList, 12)]) ∧
    (getTopN sort exampleTable 2 = [("TL1".toList, 14), ("TL2".toList, 14)] ∨
      getTopN sort exampleTable 2 = [("TL2".toList, 14), ("TL1".toList, 14)]) := by
  rcases sorted_example_cases (sort exampleTable) (hsort.perm _) (hsort.sorted_ge _) with h | h
  · exact ⟨Or.inl (by simp only [getTopN, h]; decide), Or.inl (by simp only [getTopN, h]; decide)⟩
  · exact ⟨Or.inr (by simp only [getTopN, h]; decide), Or.inr (by simp only [getTopN, h]; decide)⟩

theorem totals_agree (sort1 sort2 : List (Str × Int) → List (Str × Int))
    (h1 : StdSortContract sort1) (h2 : StdSortContract sort2) (table : Table) :
    (sort1 table).map Prod.snd = (sort2 table).map Prod.snd := by
  have hperm : ((sort1 table).map Prod.snd).Perm ((sort2 table).map Prod.snd) :=
    ((h1.perm table).trans (h2.perm table).symm).map _
  have hs1 : ((sort1 table).map Prod.snd).Sorted (fun x y : Int => x ≥ y) :=
    List.pairwise_map.2 (h1.sorted_ge table)
  have hs2 : ((sort2 table).map Prod.snd).Sorted (fun x y : Int => x ≥ y) :=
    List.pairwise_map.2 (h2.sorted_ge table)
  exact List.eq_of_perm_of_sorted hperm hs1 hs2

theorem sorted_eq_of_distinct (sort1 sort2 : List (Str × Int) → List (Str × Int))
    (h1 : StdSortContract sort1) (h2 : StdSortContract sort2) (table : Table)
    (hnd : (table.map Prod.snd).Nodup) : sort1 table = sort2 table := by
  have strict : ∀ sort : List (Str × Int) → List (Str × Int), StdSortContract sort →
      (sort table).Sorted (fun a b : Str × Int => a.2 > b.2) := by
    intro sort h
    have hnd' : ((sort table).map Prod.snd).Nodup := (((h.perm table).map _).nodup_iff).2 hnd
    rw [List.Nodup, List.pairwise_map] at hnd'
    exact ((h.sorted_ge table).and hnd').imp (fun {a b} hab => lt_of_le_of_ne hab.1 hab.2.symm)
  have : IsAntisymm (Str × Int) (fun a b => a.2 > b.2) :=
    ⟨fun a b hab hba => absurd hab (not_lt.2 (le_of_lt hba))⟩
  exact List.eq_of_perm_of_sorted ((h1.perm table).trans (h2.perm table).symm)
    (strict sort1 h1) (strict sort2 h2)

/-- C5 (amended). `getTopN` orders the entries by total only.  Two sorting
routines that meet the contract of `std::sort` report the same sequence of
totals, and the same entries when the totals of the table are pairwise
distinct; the order among entries with equal totals is left to the library
routine.  For the totals `TL1: 14, TL2: 14, TL3: 12` the report with `N = 3`
is `[(TL1,14),(TL2,14),(TL3,12)]` or `[(TL2,14),(TL1,14),(TL3,12)]`, with
`N = 2` it is `[(TL1,14),(TL2,14)]` or `[(TL2,14),(TL1,14)]`; with the sort of
GNU libstdc++ it is the first of the two in both cases. -/
theorem getTopN_order_of_ties (sort1 sort2 : List (Str × Int) → List (Str × Int))
    (h1 : StdSortContract sort1) (h2 : StdSortContract sort2) (table : Table) (N : Nat) :
    (getTopN sort1 table (N : Int)).map Prod.snd = (getTopN sort2 table (N : Int)).map Prod.snd ∧
    ((table.map Prod.snd).Nodup →
      getTopN sort1 table (N : Int) = getTopN sort2 table (N : Int)) ∧
    (getTopN sort1 exampleTable 3 = exampleTable ∨
      getTopN sort1 exampleTable 3 =
        [("TL2".toList, 14), ("TL1".toList, 14), ("TL3".toList, 12)]) ∧
    (getTopN sort1 exampleTable 2 = [("TL1".toList, 14), ("TL2".toList, 14)] ∨
      getTopN sort1 exampleTable 2 = [("TL2".toList, 14), ("TL1".toList, 14)]) ∧
    getTopN libstdcxxSort exampleTable 3 = exampleTable ∧
    getTopN libstdcxxSort exampleTable 2 = [("TL1".toList, 14), ("TL2".toList, 14)] := by
  have hlen : (sort1 table).length = (sort2 table).length :=
    ((h1.perm table).trans (h2.perm table).symm).length_eq
  refine ⟨?_, ?_, (getTopN_example_cases sort1 h1).1, (getTopN_example_cases sort1 h1).2,
    by decide, by decide⟩
  · rw [getTopN_eq_take, getTopN_eq_take, List.map_take, List.map_take, hlen,
      totals_agree sort1 sort2 h1 h2 table]
  · intro hnd
    rw [getTopN_eq_take, getTopN_eq_take, sorted_eq_of_distinct sort1 sort2 h1 h2 table hnd]

/-- C5 (amended) on the example table, for a sort that keeps ties in order and
one that reverses them. -/
theorem getTopN_order_of_ties_witness :
    StdSortContract tieKeepingSort ∧ StdSortContract tieReversingSort ∧
    (getTopN tieKeepingSort exampleTable ((3 : Nat) : Int)).map Prod.snd =
      (getTopN tieReversingSort exampleTable ((3 : Nat) : Int)).map Prod.snd :=
  ⟨tieKeepingSort_contract, tieReversingSort_contract,
    (getTopN_order_of_ties tieKeepingSort tieReversingSort tieKeepingSort_contract
      tieReversingSort_contract exampleTable 3).1⟩

/-- C5 (counterexample). A sorting routine that meets the contract of
`std::sort` reports `TL2` before `TL1` for the totals `TL1: 14, TL2: 14,
TL3: 12`, both with `N = 3` and with `N = 2`.  And the sort of GNU libstdc++
itself, on a table of seventeen lights `L00` to `L16` with equal totals,
rearranges the entries and `getTopN` reports `L08, L16, L15` as the top three,
not the first three keys. -/
theorem ties_not_in_key_order :
    StdSortContract tieReversingSort ∧
    getTopN tieReversingSort exampleTable 3 =
      [("TL2".toList, 14), ("TL1".toList, 14), ("TL3".toList, 12)] ∧
    getTopN tieReversingSort exampleTable 2 = [("TL2".toList, 14), ("TL1".toList, 14)] ∧
    seventeenLights.WF ∧
    libstdcxxSort seventeenLights =
      [ ("L08".toList, 7), ("L16".toList, 7), ("L15".toList, 7), ("L14".toList, 7),
        ("L13".toList, 7), ("L12".toList, 7), ("L11".toList, 7), ("L10".toList, 7),
        ("L09".toList, 7), ("L00".toList, 7), ("L07".toList, 7), ("L06".toList, 7),
        ("L05".toList, 7), ("L04".toList, 7), ("L03".toList, 7), ("L02".toList, 7),
        ("L01".toList, 7) ] ∧
    getTopN libstdcxxSort seventeenLights TOP_N =
      [("L08".toList, 7), ("L16".toList, 7), ("L15".toList, 7)] :=
  ⟨tieReversingSort_contract, by decide, by decide, by decide, by decide, by decide⟩

end Traffic
